import Mathlib

/-!
# Verification development for `runner.go`

A shallow embedding of the health-flattening pipeline, the HTTP handlers and
the restart supervisor of `src/runner.go`, followed by the theorems that
settle the properties stated about them.

Modelling conventions

* A Go `map[string]V` is an association list `GoMap V` whose keys are pairwise
  distinct; `GoMap.set` is the assignment `m[k] = v` (overwrite in place, or
  add a new key) and `GoMap.get?` is the lookup.  The order of the list stands
  for the order in which the runtime happens to enumerate the map.
* The `Features` of a node are the list of `(name, child)` pairs in the order
  in which `range` visits them.
* `strings.ReplaceAll(k, c, "")` for a one-character `c` deletes every
  occurrence of that character.
* The outcome of `http.Get` followed by `json.Decode` is an input
  (`Upstream`): the request failed, the body did not decode, or it decoded to
  a list of entries with optional content.
-/

namespace Runner

/-! ## Data model (runner.go, lines 32-49) -/

/-- The `Primary` record nested in `Status.Reasons.Red`. -/
structure Primary where
  Indicator : String
  Reason : String
deriving DecidableEq, Repr, Inhabited

/-- The Go struct `Status`; a nil `Reasons` pointer is `none`. -/
structure Status where
  Health : String
  Reasons : Option Primary
deriving DecidableEq, Repr, Inhabited

/-- The Go struct `Feature`: an embedded `Status` and the map of named children,
listed in the order in which `range` visits them. -/
inductive Feature where
  | mk (Status : Status) (Features : List (String × Feature))

/-- The embedded `Status` field of a `Feature`. -/
def Feature.status : Feature → Status
  | .mk s _ => s

/-- The `Features` field of a `Feature`. -/
def Feature.features : Feature → List (String × Feature)
  | .mk _ fs => fs

/-- The Go type `SplunkHealth`, declared as `type SplunkHealth Feature`. -/
abbrev SplunkHealth := Feature

/-- The zero value of `Status`, left by a document without a health field. -/
def Status.zero : Status := ⟨"", none⟩

/-! ## Go maps -/

/-- A Go map with string keys, as an association list with distinct keys. -/
abbrev GoMap (β : Type) := List (String × β)

/-- The assignment `m[k] = v`. -/
def GoMap.set {β : Type} : GoMap β → String → β → GoMap β
  | [], k, v => [(k, v)]
  | (k', v') :: m, k, v => if k' = k then (k, v) :: m else (k', v') :: GoMap.set m k v

/-- The lookup `m[k]`, `none` when the key is absent. -/
def GoMap.get? {β : Type} : GoMap β → String → Option β
  | [], _ => none
  | (k', v') :: m, k => if k' = k then some v' else GoMap.get? m k

/-- The keys of a map. -/
def GoMap.keys {β : Type} (m : GoMap β) : List String := m.map Prod.fst

/-- The loop `for k, v := range src { dst[k] = v }`. -/
def GoMap.merge {β : Type} (dst src : GoMap β) : GoMap β :=
  src.foldl (fun o kv => GoMap.set o kv.1 kv.2) dst

/-! ## Flatten and Healthy (runner.go, lines 58-77) -/

/-- The call `strings.ReplaceAll(s, old, "")` for a one-character `old`. -/
def ReplaceAll (s : String) (old : Char) : String :=
  ⟨s.data.filter (fun c => c != old)⟩

/-- The call `strings.Join(elems, sep)`. -/
def Join (elems : List String) (sep : String) : String := sep.intercalate elems

/-- The two `ReplaceAll` calls at the head of the loop body of `Flatten`. -/
def sanitize (k : String) : String := ReplaceAll (ReplaceAll k ' ') '-'

mutual
/-- The method `Feature.Flatten`, with the variadic argument as a list. -/
def Feature.Flatten : Feature → List String → GoMap Status
  | .mk _ fs, pfx => flattenRange fs pfx []
/-- The `range s.Features` loop of `Flatten`, threading the map `out`. -/
def flattenRange : List (String × Feature) → List String → GoMap Status → GoMap Status
  | [], _, out => out
  | (k, v) :: rest, pfx, out =>
    let k := sanitize k
    let out := GoMap.set out (Join (pfx ++ [k]) "/") v.status
    let out := GoMap.merge out (v.Flatten (pfx ++ [k]))
    flattenRange rest pfx out
end

/-- The method `Status.Healthy`. -/
def Status.Healthy (s : Status) : Bool := s.Health == "green"

/-- The method `SplunkHealth.Flatten`: `Feature.Flatten` without arguments. -/
def SplunkHealth.Flatten (s : SplunkHealth) : GoMap Status := Feature.Flatten s []

/-! ## The tree seen as a set of nodes -/

mutual
/-- Every node below the root, as the list of child names leading to it from
the root, with the node's own status. -/
def Feature.nodes : Feature → List (List String × Status)
  | .mk _ fs => childNodes fs
/-- The nodes of a list of named children. -/
def childNodes : List (String × Feature) → List (List String × Status)
  | [] => []
  | (k, v) :: rest =>
    (([k], v.status) :: v.nodes.map (fun p => (k :: p.1, p.2))) ++ childNodes rest
end

/-- The key of a node: the sanitized names on its path, joined by slashes. -/
def pathKey (p : List String) : String := Join (p.map sanitize) "/"

mutual
/-- Sibling names are pairwise distinct at every node, as in any Go map. -/
def Feature.WF : Feature → Bool
  | .mk _ fs => childrenWF fs
/-- Well-formedness of a list of named children. -/
def childrenWF : List (String × Feature) → Bool
  | [] => true
  | (k, v) :: rest => !(rest.map Prod.fst).contains k && v.WF && childrenWF rest
end

/-! ## Check (runner.go, lines 212-232) -/

/-- What `http.Get` and the JSON decoder deliver to `Check`. -/
inductive Upstream where
  | requestFailed
  | decodeFailed
  | decoded (Entry : List (Option SplunkHealth))

/-- The loop over `obj.Entry` in `Check`: the first entry with content replaces
the stored state. The result is the return value and the stored state. -/
def checkEntries (h : SplunkHealth) : List (Option SplunkHealth) → Bool × SplunkHealth
  | [] => (false, h)
  | none :: rest => checkEntries h rest
  | some c :: _ => (c.status.Healthy, c)

/-- The method `SplunkHealth.Check` on the stored state `h`. -/
def Check (h : SplunkHealth) : Upstream → Bool × SplunkHealth
  | .requestFailed => (false, h)
  | .decodeFailed => (false, h)
  | .decoded entry => checkEntries h entry

/-! ## The handlers (runner.go, lines 167-207) -/

/-- What a handler has written: the status code and the body so far. -/
structure Response where
  code : Nat
  body : String
deriving DecidableEq, Repr

/-- The call `w.Write` on a response whose header is already written. -/
def Response.Write (w : Response) (s : String) : Response := ⟨w.code, w.body ++ s⟩

/-- The map `nok` of the `/healthz` handler. -/
def nok (b : Bool) : String := if b then "ok" else "not ok"

/-- One verbose line of `/healthz`, as written by the handler. -/
def verboseLine (kv : String × Status) : String :=
  "\n[+]" ++ kv.1 ++ " " ++ nok kv.2.Healthy

/-- The `/healthz` handler: the response and the stored state afterwards. -/
def healthzHandler (health : SplunkHealth) (up : Upstream) (verbose : Bool) :
    Response × SplunkHealth :=
  let r := Check health up
  let w : Response := if r.1 then ⟨200, "ok"⟩ else ⟨500, "not ok"⟩
  let w := if verbose then
      ((SplunkHealth.Flatten r.2).foldl (fun w kv => w.Write (verboseLine kv)) w).Write "\n"
    else w
  (w, r.2)

/-- The value a gauge is set to for a status. -/
def gaugeValue (s : Status) : Nat := if s.Healthy then 0 else 1

/-- The `/metrics` handler up to the rendering: the gauge vector and the stored
state afterwards. `gaugeVec.Reset()` empties the vector. -/
def metricsHandler (gaugeVec : GoMap Nat) (health : SplunkHealth) (up : Upstream) :
    GoMap Nat × SplunkHealth :=
  let r := Check health up
  let g : GoMap Nat := if r.1 then [] else gaugeVec
  let g := (SplunkHealth.Flatten r.2).foldl (fun g kv => GoMap.set g kv.1 (gaugeValue kv.2)) g
  (g, r.2)

/-- The wait status behind an `os.ProcessState`. -/
inductive WaitStatus where
  | exited (code : Nat)
  | signaled (sig : Nat)
deriving DecidableEq, Repr

/-- The method `ProcessState.Exited`: true for a program that called exit, false
for one terminated by a signal. -/
def WaitStatus.Exited : WaitStatus → Bool
  | .exited _ => true
  | .signaled _ => false

/-- The part of `exec.Cmd` the `/livez` handler reads; `ProcessState` is nil
until `Wait` has returned for a started process. -/
structure Cmd where
  ProcessState : Option WaitStatus
deriving DecidableEq, Repr

/-- The `/livez` handler on the global `cmd`, nil until `RunSplunk` first
assigns it. Reading a field of the nil pointer panics and nothing is written:
`none`. -/
def livezHandler (cmd : Option Cmd) : Option Response :=
  match cmd with
  | none => none
  | some c =>
    match c.ProcessState with
    | some ps => if ps.Exited then some ⟨500, "not ok"⟩ else some ⟨200, "ok"⟩
    | none => some ⟨200, "ok"⟩

/-- The states of a supervised process named in the data model. -/
inductive LastExitState where
  | NotStarted
  | Running
  | Exited (code : Nat)
  | Killed
deriving DecidableEq, Repr

/-- The recorded handle in each state: no process state before `Wait` returns,
an exit code after an exit, a signal (SIGKILL, sent on cancellation) after a
kill. -/
def LastExitState.handle : LastExitState → Cmd
  | .NotStarted => ⟨none⟩
  | .Running => ⟨none⟩
  | .Exited code => ⟨some (.exited code)⟩
  | .Killed => ⟨some (.signaled 9)⟩

/-- A terminal exit: the process ran and is gone. -/
def LastExitState.terminal : LastExitState → Bool
  | .Exited _ => true
  | .Killed => true
  | _ => false

/-! ## The supervisor loops (runner.go, lines 126-148 and 246-256) -/

/-- Where a loop `for RunSplunk() { sleep }` stands. -/
inductive Phase where
  | atStart
  | atWait
  | atReturn
  | sleeping
  | exited
deriving DecidableEq, Repr

/-- One supervisor: the number of child processes it has started and its
position in the loop. -/
structure Supervisor where
  started : Nat
  phase : Phase
deriving DecidableEq, Repr

/-- What can happen to a supervisor: its thread advances (in `atWait`, the
child has ended and `Wait` returns), or `Start` fails on its own. -/
inductive Advance where
  | next
  | startError
deriving DecidableEq, Repr

/-- One step of a supervisor loop under the context state `done`
(`ctx.Err() != nil`). `cmd.Start` on a command built by `CommandContext` returns
the context's error without starting a process when the context is done; the
loop condition is `ctx.Err() == nil`, read when `Wait` has returned. -/
def Supervisor.step (done : Bool) (u : Supervisor) (a : Advance) : Supervisor :=
  match u.phase with
  | .atStart =>
    if done then ⟨u.started, .atReturn⟩
    else match a with
      | .next => ⟨u.started + 1, .atWait⟩
      | .startError => ⟨u.started, .atReturn⟩
  | .atWait => ⟨u.started, .atReturn⟩
  | .atReturn => if done then ⟨u.started, .exited⟩ else ⟨u.started, .sleeping⟩
  | .sleeping => ⟨u.started, .atStart⟩
  | .exited => u

/-- The shutdown flag and the two supervisors sharing it. -/
structure System where
  shutdown : Bool
  splunk : Supervisor
  tail : Supervisor
deriving DecidableEq, Repr

/-- The events of the system: a termination signal, or a step of one loop. -/
inductive Event where
  | signal
  | runSplunk (a : Advance)
  | tailFile (a : Advance)
deriving DecidableEq, Repr

/-- The step relation, as a function of the event. -/
def System.step (s : System) : Event → System
  | .signal => { s with shutdown := true }
  | .runSplunk a => { s with splunk := s.splunk.step s.shutdown a }
  | .tailFile a => { s with tail := s.tail.step s.shutdown a }

/-- A run: the events applied in order. -/
def System.run (s : System) (es : List Event) : System := es.foldl System.step s

/-- The steps of the `RunSplunk` loop among the events. -/
def Event.isRunSplunk : Event → Bool
  | .runSplunk _ => true
  | _ => false

/-- The steps of the `TailFile` loop among the events. -/
def Event.isTailFile : Event → Bool
  | .tailFile _ => true
  | _ => false

/-- The number of steps a loop at this position takes at most before it has
exited, once the context is done. -/
def Phase.rank : Phase → Nat
  | .exited => 0
  | .atReturn => 1
  | .atStart => 2
  | .atWait => 2
  | .sleeping => 3

/-- The state in which the signal arrives while the `RunSplunk` loop sleeps after
its first child has ended. -/
def System.signalledAsleep : System := ⟨true, ⟨1, .sleeping⟩, ⟨0, .atStart⟩⟩

/-- The state in which `main` starts both loops. -/
def System.init : System := ⟨false, ⟨0, .atStart⟩, ⟨0, .atStart⟩⟩

/-! ## Example documents -/

/-- A status with the given health and no reasons. -/
def st (health : String) : Status := ⟨health, none⟩

/-- The document of the worked example, children in the order written. -/
def exampleDoc : Feature :=
  .mk (st "red")
    [("disk space", .mk (st "green") []),
     ("network", .mk (st "red") [("latency", .mk (st "red") [])])]

/-- The same document with the root's children visited in the other order. -/
def exampleDocRev : Feature :=
  .mk (st "red")
    [("network", .mk (st "red") [("latency", .mk (st "red") [])]),
     ("disk space", .mk (st "green") [])]

/-- Two siblings whose names differ only by a space. -/
def collidingDoc : Feature :=
  .mk (st "green") [("a b", .mk (st "green") []), ("ab", .mk (st "red") [])]

/-! ## Lemmas on Go maps -/

theorem GoMap.mem_keys_set {β : Type} (m : GoMap β) (k : String) (v : β) (k' : String) :
    k' ∈ (GoMap.set m k v).keys ↔ k' = k ∨ k' ∈ m.keys := by
  induction m with
  | nil => simp [GoMap.set, GoMap.keys]
  | cons hd tl ih =>
    obtain ⟨k0, v0⟩ := hd
    by_cases h : k0 = k
    · subst h
      simp [GoMap.set, GoMap.keys]
    · have ih' : k' ∈ List.map Prod.fst (GoMap.set tl k v) ↔ k' = k ∨ k' ∈ List.map Prod.fst tl := ih
      simp only [GoMap.set, GoMap.keys, if_neg h, List.map_cons, List.mem_cons, ih']
      tauto

theorem GoMap.nodup_keys_set {β : Type} (m : GoMap β) (k : String) (v : β)
    (hm : m.keys.Nodup) : (GoMap.set m k v).keys.Nodup := by
  induction m with
  | nil => simp [GoMap.set, GoMap.keys]
  | cons hd tl ih =>
    obtain ⟨k0, v0⟩ := hd
    have hm' : k0 ∉ GoMap.keys tl ∧ (GoMap.keys tl).Nodup := by
      simpa [GoMap.keys] using hm
    by_cases h : k0 = k
    · subst h
      simpa [GoMap.set, GoMap.keys] using hm
    · have h1 : k0 ∉ (GoMap.set tl k v).keys := by
        rw [GoMap.mem_keys_set]
        rintro (h2 | h2)
        · exact h h2
        · exact hm'.1 h2
      have h2 := ih hm'.2
      simp only [GoMap.set, if_neg h]
      show (k0 :: (GoMap.set tl k v).keys).Nodup
      exact List.nodup_cons.mpr ⟨h1, h2⟩

theorem GoMap.mem_set {β : Type} (m : GoMap β) (k : String) (v : β) (p : String × β)
    (hp : p ∈ GoMap.set m k v) : p = (k, v) ∨ p ∈ m := by
  induction m with
  | nil => simpa [GoMap.set] using hp
  | cons hd tl ih =>
    obtain ⟨k0, v0⟩ := hd
    by_cases h : k0 = k
    · simp only [GoMap.set, if_pos h, List.mem_cons] at hp
      rcases hp with hp | hp
      · exact Or.inl hp
      · exact Or.inr (List.mem_cons_of_mem _ hp)
    · simp only [GoMap.set, if_neg h, List.mem_cons] at hp
      rcases hp with hp | hp
      · exact Or.inr (hp ▸ List.mem_cons_self _ _)
      · rcases ih hp with h1 | h1
        · exact Or.inl h1
        · exact Or.inr (List.mem_cons_of_mem _ h1)

theorem GoMap.get?_set {β : Type} (m : GoMap β) (k : String) (v : β) (k' : String) :
    (GoMap.set m k v).get? k' = if k' = k then some v else m.get? k' := by
  induction m with
  | nil =>
    by_cases h : k' = k
    · simp [GoMap.set, GoMap.get?, h]
    · have h' : ¬ k = k' := fun e => h e.symm
      simp [GoMap.set, GoMap.get?, h, h']
  | cons hd tl ih =>
    obtain ⟨k0, v0⟩ := hd
    by_cases h : k0 = k
    · subst h
      by_cases h' : k' = k0
      · subst h'
        simp [GoMap.set, GoMap.get?]
      · have hne : ¬ k0 = k' := fun e => h' e.symm
        simp [GoMap.set, GoMap.get?, h', hne]
    · by_cases h' : k0 = k'
      · subst h'
        simp [GoMap.set, GoMap.get?, h]
      · simp only [GoMap.set, if_neg h, GoMap.get?, if_neg h', ih]

theorem GoMap.get?_eq_none {β : Type} (m : GoMap β) (k : String) (hk : k ∉ m.keys) :
    m.get? k = none := by
  induction m with
  | nil => rfl
  | cons hd tl ih =>
    obtain ⟨k0, v0⟩ := hd
    have h1 : ¬ k = k0 ∧ k ∉ GoMap.keys tl := by simpa [GoMap.keys] using hk
    have h2 : ¬ k0 = k := fun e => h1.1 e.symm
    simp only [GoMap.get?, if_neg h2]
    exact ih h1.2

theorem GoMap.mem_of_get? {β : Type} (m : GoMap β) (k : String) (v : β)
    (h : m.get? k = some v) : (k, v) ∈ m := by
  induction m with
  | nil => simp [GoMap.get?] at h
  | cons hd tl ih =>
    obtain ⟨k0, v0⟩ := hd
    by_cases h0 : k0 = k
    · subst h0
      simp only [GoMap.get?, if_true, Option.some.injEq] at h
      subst h
      exact List.mem_cons_self _ _
    · simp only [GoMap.get?, if_neg h0] at h
      exact List.mem_cons_of_mem _ (ih h)

theorem GoMap.get?_of_mem {β : Type} (m : GoMap β) (k : String) (v : β)
    (hm : m.keys.Nodup) (h : (k, v) ∈ m) : m.get? k = some v := by
  induction m with
  | nil => simp at h
  | cons hd tl ih =>
    obtain ⟨k0, v0⟩ := hd
    have hm' : k0 ∉ GoMap.keys tl ∧ (GoMap.keys tl).Nodup := by
      simpa [GoMap.keys] using hm
    rcases List.mem_cons.mp h with h1 | h1
    · obtain ⟨rfl, rfl⟩ := Prod.mk.inj h1
      simp [GoMap.get?]
    · have hk : k ∈ GoMap.keys tl := List.mem_map.mpr ⟨(k, v), h1, rfl⟩
      have h0 : ¬ k0 = k := fun e => hm'.1 (e ▸ hk)
      simp only [GoMap.get?, if_neg h0]
      exact ih hm'.2 h1

theorem GoMap.mem_keys_iff_get? {β : Type} (m : GoMap β) (k : String) :
    k ∈ m.keys ↔ ∃ v, m.get? k = some v := by
  constructor
  · intro hk
    cases h : m.get? k with
    | some v => exact ⟨v, rfl⟩
    | none =>
      exfalso
      induction m with
      | nil => simp [GoMap.keys] at hk
      | cons hd tl ih =>
        obtain ⟨k0, v0⟩ := hd
        by_cases h0 : k0 = k
        · simp [GoMap.get?, h0] at h
        · simp only [GoMap.get?, if_neg h0] at h
          have : k ∈ GoMap.keys tl := by
            have h2 : k = k0 ∨ k ∈ GoMap.keys tl := by simpa [GoMap.keys] using hk
            rcases h2 with h2 | h2
            · exact absurd h2.symm h0
            · exact h2
          exact ih this h
  · rintro ⟨v, hv⟩
    exact List.mem_map.mpr ⟨(k, v), GoMap.mem_of_get? m k v hv, rfl⟩

theorem GoMap.mem_keys_merge {β : Type} (src dst : GoMap β) (k : String) :
    k ∈ (GoMap.merge dst src).keys ↔ k ∈ dst.keys ∨ k ∈ src.keys := by
  induction src generalizing dst with
  | nil => simp [GoMap.merge, GoMap.keys]
  | cons hd tl ih =>
    have h := ih (GoMap.set dst hd.1 hd.2)
    simp only [GoMap.merge, List.foldl_cons] at h ⊢
    rw [h, GoMap.mem_keys_set]
    simp only [GoMap.keys, List.map_cons, List.mem_cons]
    tauto

theorem GoMap.nodup_keys_merge {β : Type} (src dst : GoMap β) (hd : dst.keys.Nodup) :
    (GoMap.merge dst src).keys.Nodup := by
  induction src generalizing dst with
  | nil => simpa [GoMap.merge] using hd
  | cons x tl ih =>
    have h := ih (GoMap.set dst x.1 x.2) (GoMap.nodup_keys_set dst x.1 x.2 hd)
    simpa [GoMap.merge] using h

theorem GoMap.mem_merge {β : Type} (src dst : GoMap β) (p : String × β)
    (hp : p ∈ GoMap.merge dst src) : p ∈ dst ∨ p ∈ src := by
  induction src generalizing dst with
  | nil => exact Or.inl (by simpa [GoMap.merge] using hp)
  | cons x tl ih =>
    have h : p ∈ GoMap.merge (GoMap.set dst x.1 x.2) tl := by simpa [GoMap.merge] using hp
    rcases ih _ h with h1 | h1
    · rcases GoMap.mem_set dst x.1 x.2 p h1 with h2 | h2
      · exact Or.inr (h2 ▸ List.mem_cons_self _ _)
      · exact Or.inl h2
    · exact Or.inr (List.mem_cons_of_mem _ h1)

theorem GoMap.get?_merge {β : Type} (src dst : GoMap β) (k : String)
    (hs : src.keys.Nodup) :
    (GoMap.merge dst src).get? k =
      match src.get? k with
      | some v => some v
      | none => dst.get? k := by
  induction src generalizing dst with
  | nil => simp [GoMap.merge, GoMap.get?]
  | cons x tl ih =>
    obtain ⟨k0, v0⟩ := x
    have hs' : k0 ∉ GoMap.keys tl ∧ (GoMap.keys tl).Nodup := by
      simpa [GoMap.keys] using hs
    have h := ih (GoMap.set dst k0 v0) hs'.2
    simp only [GoMap.merge, List.foldl_cons] at h ⊢
    rw [h, GoMap.get?_set]
    by_cases h0 : k0 = k
    · subst h0
      simp [GoMap.get?, GoMap.get?_eq_none tl k0 hs'.1]
    · have h0' : ¬ k = k0 := fun e => h0 e.symm
      simp only [GoMap.get?, if_neg h0, if_neg h0']

/-! ## Flatten against the nodes of the tree -/

/-- The key under which `Flatten` called with `pfx` records the node at path `p`. -/
theorem keyAt_cons (pfx : List String) (k : String) (p : List String) :
    Join (pfx ++ (k :: p).map sanitize) "/" =
      Join ((pfx ++ [sanitize k]) ++ p.map sanitize) "/" := by
  simp [List.append_assoc]

theorem keyAt_single (pfx : List String) (k : String) :
    Join (pfx ++ [k].map sanitize) "/" = Join (pfx ++ [sanitize k]) "/" := by
  simp

mutual
theorem flatten_inv : ∀ (T : Feature) (pfx : List String),
    (T.Flatten pfx).keys.Nodup ∧
    (∀ k, k ∈ (T.Flatten pfx).keys ↔
      ∃ p ∈ T.nodes, Join (pfx ++ p.1.map sanitize) "/" = k) ∧
    (∀ k v, (k, v) ∈ T.Flatten pfx →
      ∃ p ∈ T.nodes, Join (pfx ++ p.1.map sanitize) "/" = k ∧ p.2 = v)
  | .mk s fs, pfx => by
    have h := range_inv fs pfx [] (by simp [GoMap.keys])
    refine ⟨?_, ?_, ?_⟩
    · simpa [Feature.Flatten] using h.1
    · intro k
      have h2 := h.2.1 k
      simpa [Feature.Flatten, Feature.nodes, GoMap.keys] using h2
    · intro k v hkv
      have h3 := h.2.2 k v (by simpa [Feature.Flatten] using hkv)
      simpa [Feature.nodes] using h3
theorem range_inv : ∀ (fs : List (String × Feature)) (pfx : List String)
    (out : GoMap Status), out.keys.Nodup →
    (flattenRange fs pfx out).keys.Nodup ∧
    (∀ k, k ∈ (flattenRange fs pfx out).keys ↔
      k ∈ out.keys ∨ ∃ p ∈ childNodes fs, Join (pfx ++ p.1.map sanitize) "/" = k) ∧
    (∀ k v, (k, v) ∈ flattenRange fs pfx out →
      (k, v) ∈ out ∨
        ∃ p ∈ childNodes fs, Join (pfx ++ p.1.map sanitize) "/" = k ∧ p.2 = v)
  | [], pfx, out, hout => by
    refine ⟨?_, ?_, ?_⟩
    · simpa [flattenRange] using hout
    · intro k
      simp [flattenRange, childNodes]
    · intro k v hkv
      exact Or.inl (by simpa [flattenRange] using hkv)
  | (name, child) :: rest, pfx, out, hout => by
    have hc := flatten_inv child (pfx ++ [sanitize name])
    have hout1 : (GoMap.set out (Join (pfx ++ [sanitize name]) "/") child.status).keys.Nodup :=
      GoMap.nodup_keys_set _ _ _ hout
    have hout2 := GoMap.nodup_keys_merge (child.Flatten (pfx ++ [sanitize name])) _ hout1
    have hr := range_inv rest pfx _ hout2
    have hunf : flattenRange ((name, child) :: rest) pfx out =
        flattenRange rest pfx
          (GoMap.merge (GoMap.set out (Join (pfx ++ [sanitize name]) "/") child.status)
            (child.Flatten (pfx ++ [sanitize name]))) := by
      simp [flattenRange]
    rw [hunf]
    refine ⟨hr.1, ?_, ?_⟩
    · intro k
      rw [hr.2.1 k, GoMap.mem_keys_merge, GoMap.mem_keys_set, hc.2.1 k]
      constructor
      · rintro (((h | h) | ⟨p, hp, hk⟩) | ⟨p, hp, hk⟩)
        · refine Or.inr ⟨([name], child.status), ?_, ?_⟩
          · simp [childNodes]
          · rw [h]; exact keyAt_single pfx name
        · exact Or.inl h
        · refine Or.inr ⟨(name :: p.1, p.2), ?_, ?_⟩
          · simp only [childNodes, List.cons_append, List.mem_cons, List.mem_append,
              List.mem_map]
            exact Or.inr (Or.inl ⟨p, hp, rfl⟩)
          · rw [← hk]; exact keyAt_cons pfx name p.1
        · refine Or.inr ⟨p, ?_, hk⟩
          simp only [childNodes, List.cons_append, List.mem_cons, List.mem_append]
          exact Or.inr (Or.inr hp)
      · rintro (h | ⟨p, hp, hk⟩)
        · exact Or.inl (Or.inl (Or.inr h))
        · simp only [childNodes, List.cons_append, List.mem_cons, List.mem_append,
            List.mem_map] at hp
          rcases hp with hp | ⟨q, hq, hpq⟩ | hp
          · subst hp
            exact Or.inl (Or.inl (Or.inl (by rw [← hk]; exact (keyAt_single pfx name).symm)))
          · subst hpq
            exact Or.inl (Or.inr ⟨q, hq, by rw [← hk]; exact (keyAt_cons pfx name q.1).symm⟩)
          · exact Or.inr ⟨p, hp, hk⟩
    · intro k v hkv
      rcases hr.2.2 k v hkv with h | ⟨p, hp, hk, hv⟩
      · rcases GoMap.mem_merge _ _ _ h with h1 | h1
        · rcases GoMap.mem_set _ _ _ _ h1 with h2 | h2
          · obtain ⟨rfl, rfl⟩ := Prod.mk.inj h2
            refine Or.inr ⟨([name], child.status), ?_, keyAt_single pfx name, rfl⟩
            simp [childNodes]
          · exact Or.inl h2
        · obtain ⟨p, hp, hk, hv⟩ := hc.2.2 k v h1
          refine Or.inr ⟨(name :: p.1, p.2), ?_, ?_, hv⟩
          · simp only [childNodes, List.cons_append, List.mem_cons, List.mem_append,
              List.mem_map]
            exact Or.inr (Or.inl ⟨p, hp, rfl⟩)
          · rw [← hk]; exact keyAt_cons pfx name p.1
      · refine Or.inr ⟨p, ?_, hk, hv⟩
        simp only [childNodes, List.cons_append, List.mem_cons, List.mem_append]
        exact Or.inr (Or.inr hp)
end

theorem flatten_keys_nodup (T : Feature) : (SplunkHealth.Flatten T).keys.Nodup :=
  (flatten_inv T []).1

theorem flatten_mem_keys (T : Feature) (k : String) :
    k ∈ (SplunkHealth.Flatten T).keys ↔ ∃ p ∈ T.nodes, pathKey p.1 = k := by
  have h := (flatten_inv T []).2.1 k
  simpa [SplunkHealth.Flatten, pathKey] using h

theorem flatten_get?_node (T : Feature) (k : String) (v : Status)
    (h : (SplunkHealth.Flatten T).get? k = some v) :
    ∃ p ∈ T.nodes, pathKey p.1 = k ∧ p.2 = v := by
  have h1 := (flatten_inv T []).2.2 k v (GoMap.mem_of_get? _ k v h)
  simpa [pathKey] using h1

theorem flatten_length_le (T : Feature) :
    (SplunkHealth.Flatten T).length ≤ T.nodes.length := by
  have hsub : (SplunkHealth.Flatten T).keys ⊆ T.nodes.map (fun p => pathKey p.1) := by
    intro k hk
    obtain ⟨p, hp, hpk⟩ := (flatten_mem_keys T k).mp hk
    exact List.mem_map.mpr ⟨p, hp, hpk⟩
  have h := ((flatten_keys_nodup T).subperm hsub).length_le
  simpa [GoMap.keys] using h

theorem flatten_length_eq (T : Feature)
    (hd : (T.nodes.map (fun p => pathKey p.1)).Nodup) :
    (SplunkHealth.Flatten T).length = T.nodes.length := by
  have hperm : (SplunkHealth.Flatten T).keys.Perm (T.nodes.map (fun p => pathKey p.1)) := by
    refine (List.perm_ext_iff_of_nodup (flatten_keys_nodup T) hd).mpr ?_
    intro k
    rw [flatten_mem_keys]
    simp [List.mem_map]
  have h := hperm.length_eq
  simpa [GoMap.keys] using h

theorem flatten_get?_of_node (T : Feature)
    (hd : (T.nodes.map (fun p => pathKey p.1)).Nodup)
    (p : List String × Status) (hp : p ∈ T.nodes) :
    (SplunkHealth.Flatten T).get? (pathKey p.1) = some p.2 := by
  have hk : pathKey p.1 ∈ (SplunkHealth.Flatten T).keys :=
    (flatten_mem_keys T _).mpr ⟨p, hp, rfl⟩
  obtain ⟨v, hv⟩ := (GoMap.mem_keys_iff_get? _ _).mp hk
  obtain ⟨q, hq, hqk, hqv⟩ := flatten_get?_node T _ v hv
  have hpq : q = p := by
    have hinj := List.inj_on_of_nodup_map hd
    exact hinj hq hp hqk
  rw [hv, ← hqv, hpq]

theorem mem_childNodes_of_mem (fs : List (String × Feature)) (name : String)
    (c : Feature) (h : (name, c) ∈ fs) : ([name], c.status) ∈ childNodes fs := by
  induction fs with
  | nil => simp at h
  | cons hd tl ih =>
    obtain ⟨k0, v0⟩ := hd
    rcases List.mem_cons.mp h with h1 | h1
    · obtain ⟨rfl, rfl⟩ := Prod.mk.inj h1
      simp [childNodes]
    · have := ih h1
      simp only [childNodes, List.cons_append, List.mem_cons, List.mem_append]
      exact Or.inr (Or.inr this)

/-! ## Characters of a key -/

theorem sanitize_data (k : String) :
    (sanitize k).data = k.data.filter (fun c => c != ' ' && c != '-') := by
  simp [sanitize, ReplaceAll, List.filter_filter, Bool.and_comm]

theorem intercalate_go_data (sep : String) (l : List String) (acc : String) (c : Char)
    (hc : c ∈ (String.intercalate.go acc sep l).data) :
    c ∈ acc.data ∨ c ∈ sep.data ∨ ∃ s ∈ l, c ∈ s.data := by
  induction l generalizing acc with
  | nil => exact Or.inl (by simpa [String.intercalate.go] using hc)
  | cons a tl ih =>
    have h := ih (acc ++ sep ++ a) (by simpa [String.intercalate.go] using hc)
    rcases h with h | h | ⟨s, hs, hcs⟩
    · have h' : c ∈ acc.data ∨ c ∈ sep.data ∨ c ∈ a.data := by
        simpa [String.data_append] using h
      rcases h' with h' | h' | h'
      · exact Or.inl h'
      · exact Or.inr (Or.inl h')
      · exact Or.inr (Or.inr ⟨a, List.mem_cons_self _ _, h'⟩)
    · exact Or.inr (Or.inl h)
    · exact Or.inr (Or.inr ⟨s, List.mem_cons_of_mem _ hs, hcs⟩)

theorem Join_data (sep : String) (l : List String) (c : Char)
    (hc : c ∈ (Join l sep).data) : c ∈ sep.data ∨ ∃ s ∈ l, c ∈ s.data := by
  cases l with
  | nil => simp [Join, String.intercalate] at hc
  | cons a tl =>
    have h := intercalate_go_data sep tl a c (by simpa [Join, String.intercalate] using hc)
    rcases h with h | h | ⟨s, hs, hcs⟩
    · exact Or.inr ⟨a, List.mem_cons_self _ _, h⟩
    · exact Or.inl h
    · exact Or.inr ⟨s, List.mem_cons_of_mem _ hs, hcs⟩

theorem pathKey_clean (p : List String) (c : Char) (hc : c ∈ (pathKey p).data) :
    c ≠ ' ' ∧ c ≠ '-' := by
  rcases Join_data "/" (p.map sanitize) c hc with h | ⟨s, hs, hcs⟩
  · have : c = '/' := by simpa using h
    subst this
    exact ⟨by decide, by decide⟩
  · obtain ⟨name, _, rfl⟩ := List.mem_map.mp hs
    rw [sanitize_data] at hcs
    have := (List.mem_filter.mp hcs).2
    simpa using this

/-! ## Flatten: entries, keys and values -/

/-- C1 (as stated, refuted): the well-formed tree `collidingDoc` has two nodes
below the root, named "a b" and "ab", yet `Flatten` returns a single entry,
under the key "ab", holding the status of the child visited last; the green
node "a b" has no entry of its own. -/
theorem flatten_count_counterexample :
    collidingDoc.WF = true ∧
    collidingDoc.nodes = [(["a b"], st "green"), (["ab"], st "red")] ∧
    pathKey ["a b"] = "ab" ∧ pathKey ["ab"] = "ab" ∧
    SplunkHealth.Flatten collidingDoc = [("ab", st "red")] ∧
    (SplunkHealth.Flatten collidingDoc).length ≠ collidingDoc.nodes.length := by
  decide

/-- C1 (amended): for every health tree whose nodes below the root have pairwise
distinct sanitized slash-joined paths, `Flatten` returns exactly one entry per
such node: the keys are pairwise distinct, the number of entries is the number
of nodes below the root, and the entry under each node's path is that node's
status. -/
theorem flatten_one_entry_per_node (T : Feature)
    (hd : (T.nodes.map (fun p => pathKey p.1)).Nodup) :
    (SplunkHealth.Flatten T).keys.Nodup ∧
    (SplunkHealth.Flatten T).length = T.nodes.length ∧
    ∀ p ∈ T.nodes, (SplunkHealth.Flatten T).get? (pathKey p.1) = some p.2 :=
  ⟨flatten_keys_nodup T, flatten_length_eq T hd, fun p hp => flatten_get?_of_node T hd p hp⟩

/-- C1 (amended), at the document of the worked example: its three nodes have
distinct paths, so there are three entries. -/
theorem flatten_one_entry_per_node_witness :
    (exampleDoc.nodes.map (fun p => pathKey p.1)).Nodup ∧
    (SplunkHealth.Flatten exampleDoc).length = exampleDoc.nodes.length :=
  ⟨by decide, (flatten_one_entry_per_node exampleDoc (by decide)).2.1⟩

/-- C2: for every health tree, the keys of `Flatten` are exactly the sanitized
slash-joined paths of the nodes below the root (inner nodes and leaves alike),
every stored value is the status of a node below the root with that path, the
result does not depend on the root's own status, and the worked example yields
diskspace green, network red, network/latency red, whichever child of the root
is visited first. -/
theorem flatten_keys_and_values (T : Feature) :
    (∀ k, k ∈ (SplunkHealth.Flatten T).keys ↔ ∃ p ∈ T.nodes, pathKey p.1 = k) ∧
    (∀ k v, (SplunkHealth.Flatten T).get? k = some v →
      ∃ p ∈ T.nodes, pathKey p.1 = k ∧ p.2 = v) ∧
    (∀ s : Status, SplunkHealth.Flatten (.mk s T.features) = SplunkHealth.Flatten T) ∧
    ((∀ p ∈ T.nodes, pathKey p.1 ≠ "") → (SplunkHealth.Flatten T).get? "" = none) ∧
    SplunkHealth.Flatten exampleDoc =
      [("diskspace", st "green"), ("network", st "red"), ("network/latency", st "red")] ∧
    SplunkHealth.Flatten exampleDocRev =
      [("network", st "red"), ("network/latency", st "red"), ("diskspace", st "green")] := by
  refine ⟨flatten_mem_keys T, flatten_get?_node T, ?_, ?_, by decide, by decide⟩
  · intro s
    cases T with
    | mk s0 fs => simp [SplunkHealth.Flatten, Feature.Flatten, Feature.features]
  · intro h
    apply GoMap.get?_eq_none
    intro hk
    obtain ⟨p, hp, hpk⟩ := (flatten_mem_keys T "").mp hk
    exact h p hp hpk

/-- C3: `Healthy` holds exactly when the health field is the string "green"; it
fails for "Green", for the empty string and for the zero value of `Status`. -/
theorem healthy_iff_green (s : Status) :
    (s.Healthy = true ↔ s.Health = "green") ∧
    (st "green").Healthy = true ∧
    (st "Green").Healthy = false ∧
    (st "").Healthy = false ∧
    Status.zero.Healthy = false := by
  refine ⟨?_, by decide, by decide, by decide, by decide⟩
  simp [Status.Healthy]

/-- C4: sanitizing a name deletes exactly its spaces and hyphens; every key of
`Flatten` is the slash-joined sequence of the sanitized child names on the path
of a node and contains neither a space nor a hyphen; a child named "S2S Port"
directly under the root is keyed "S2SPort". -/
theorem flatten_keys_sanitized (T : Feature) :
    (∀ name, (sanitize name).data = name.data.filter (fun c => c != ' ' && c != '-')) ∧
    (∀ k ∈ (SplunkHealth.Flatten T).keys,
      (∃ p ∈ T.nodes, k = Join (p.1.map sanitize) "/") ∧
      ' ' ∉ k.data ∧ '-' ∉ k.data) ∧
    sanitize "S2S Port" = "S2SPort" ∧
    (∀ c, ("S2S Port", c) ∈ T.features →
      "S2SPort" ∈ (SplunkHealth.Flatten T).keys) := by
  refine ⟨sanitize_data, ?_, by decide, ?_⟩
  · intro k hk
    obtain ⟨p, hp, hpk⟩ := (flatten_mem_keys T k).mp hk
    refine ⟨⟨p, hp, hpk.symm⟩, ?_, ?_⟩
    · intro hc
      exact (pathKey_clean p.1 ' ' (hpk ▸ hc)).1 rfl
    · intro hc
      exact (pathKey_clean p.1 '-' (hpk ▸ hc)).2 rfl
  · intro c hc
    have hkey : pathKey ["S2S Port"] = "S2SPort" := by decide
    refine (flatten_mem_keys T _).mpr ⟨(["S2S Port"], c.status), ?_, hkey⟩
    cases T with
    | mk s0 fs => exact mem_childNodes_of_mem fs _ c hc

/-! ## Check -/

theorem checkEntries_all_none (h : SplunkHealth) (E : List (Option SplunkHealth))
    (hE : ∀ e ∈ E, e = none) : checkEntries h E = (false, h) := by
  induction E with
  | nil => rfl
  | cons e tl ih =>
    have he : e = none := hE e (List.mem_cons_self _ _)
    subst he
    simpa [checkEntries] using ih (fun x hx => hE x (List.mem_cons_of_mem _ hx))

theorem checkEntries_first (h c : SplunkHealth) (pre post : List (Option SplunkHealth))
    (hpre : ∀ e ∈ pre, e = none) :
    checkEntries h (pre ++ some c :: post) = (c.status.Healthy, c) := by
  induction pre with
  | nil => rfl
  | cons e tl ih =>
    have he : e = none := hpre e (List.mem_cons_self _ _)
    subst he
    simpa [checkEntries] using ih (fun x hx => hpre x (List.mem_cons_of_mem _ hx))

/-- C5: when the upstream request fails or the response body does not decode,
`Check` returns false and the stored health state, and with it the flattened
snapshot, is the one from before the call. -/
theorem check_failure_keeps_state (h : SplunkHealth) :
    Check h .requestFailed = (false, h) ∧
    Check h .decodeFailed = (false, h) ∧
    SplunkHealth.Flatten (Check h .requestFailed).2 = SplunkHealth.Flatten h ∧
    SplunkHealth.Flatten (Check h .decodeFailed).2 = SplunkHealth.Flatten h :=
  ⟨rfl, rfl, rfl, rfl⟩

/-- C6: on a decoded response, when an entry with content is preceded only by
entries without content, `Check` stores that content and returns true exactly
when its root health is "green"; when no entry has content (the empty list
included), `Check` returns false and keeps the stored state. -/
theorem check_takes_first_content (h : SplunkHealth) (E : List (Option SplunkHealth)) :
    (∀ pre c post, E = pre ++ some c :: post → (∀ e ∈ pre, e = none) →
      (Check h (.decoded E)).2 = c ∧
      ((Check h (.decoded E)).1 = true ↔ c.status.Health = "green")) ∧
    ((∀ e ∈ E, e = none) → Check h (.decoded E) = (false, h)) ∧
    Check h (.decoded []) = (false, h) := by
  refine ⟨?_, ?_, rfl⟩
  · intro pre c post hE hpre
    subst hE
    have hc : Check h (.decoded (pre ++ some c :: post)) = (c.status.Healthy, c) :=
      checkEntries_first h c pre post hpre
    rw [hc]
    simp [Status.Healthy]
  · intro hE
    exact checkEntries_all_none h E hE

/-! ## The handlers -/

theorem foldl_append_join (l : List String) (acc : String) :
    l.foldl (fun a b => a ++ b) acc = acc ++ String.join l := by
  induction l generalizing acc with
  | nil => simp [String.join]
  | cons x tl ih =>
    have h1 := ih (acc ++ x)
    have h2 := ih ("" ++ x)
    simp only [List.foldl_cons, String.join] at h1 h2 ⊢
    rw [h1, h2]
    simp [String.append_assoc]

theorem join_cons (a : String) (l : List String) :
    String.join (a :: l) = a ++ String.join l := by
  have h := foldl_append_join l ("" ++ a)
  simp only [String.join, List.foldl_cons] at h ⊢
  rw [h]
  simp

theorem foldl_Write (l : List (String × Status)) (w : Response) :
    l.foldl (fun w kv => w.Write (verboseLine kv)) w =
      ⟨w.code, w.body ++ String.join (l.map verboseLine)⟩ := by
  induction l generalizing w with
  | nil => simp [String.join]
  | cons x tl ih =>
    rw [List.foldl_cons, ih, List.map_cons, join_cons]
    simp [Response.Write, String.append_assoc]

theorem healthz_response (health : SplunkHealth) (up : Upstream) (verbose : Bool) :
    (healthzHandler health up verbose).1 =
      ⟨if (Check health up).1 then 200 else 500,
        nok (Check health up).1 ++
          if verbose then
            String.join ((SplunkHealth.Flatten (Check health up).2).map verboseLine) ++ "\n"
          else ""⟩ := by
  cases hv : verbose <;> cases hc : (Check health up).1 <;>
    simp only [healthzHandler, hc, foldl_Write] <;>
    simp [nok, Response.Write, String.append_assoc]

/-- C8: the `/healthz` response has status 200 and a body beginning with "ok"
when `Check` returns true, status 500 and a body beginning with "not ok" when it
returns false (as it does when the service cannot be reached); without the
verbose flag the body is that word alone, with it the word is followed by one
line per entry of the flattened state after the check, each a newline, "[+]",
the path, a space and "ok" or "not ok" by the entry's health, and the body ends
in a newline. -/
theorem healthz_contract (health : SplunkHealth) (up : Upstream) :
    (∀ verbose, (healthzHandler health up verbose).1.code =
      if (Check health up).1 then 200 else 500) ∧
    (∀ verbose, (nok (Check health up).1).data <+:
      (healthzHandler health up verbose).1.body.data) ∧
    (healthzHandler health up false).1.body = nok (Check health up).1 ∧
    (healthzHandler health up true).1.body =
      nok (Check health up).1 ++
        String.join ((SplunkHealth.Flatten (Check health up).2).map verboseLine) ++ "\n" ∧
    ((SplunkHealth.Flatten (Check health up).2).map verboseLine).length =
      (SplunkHealth.Flatten (Check health up).2).length ∧
    (∀ k s, verboseLine (k, s) =
      "\n[+]" ++ k ++ " " ++ (if s.Health = "green" then "ok" else "not ok")) ∧
    (healthzHandler health up true).1.body.data.getLast? = some '\n' ∧
    (∀ verbose, (healthzHandler health up verbose).2 = (Check health up).2) ∧
    (∀ verbose, (healthzHandler health .requestFailed verbose).1.code = 500) ∧
    nok true = "ok" ∧ nok false = "not ok" := by
  refine ⟨?_, ?_, ?_, ?_, by simp, ?_, ?_, ?_, ?_, rfl, rfl⟩
  · intro verbose
    rw [healthz_response]
  · intro verbose
    rw [healthz_response]
    simp
  · rw [healthz_response]
    simp
  · rw [healthz_response]
    simp [String.append_assoc]
  · intro k s
    simp [verboseLine, nok, Status.Healthy]
  · rw [healthz_response]
    simp
  · intro verbose
    rfl
  · intro verbose
    rw [healthz_response]
    simp [Check]

theorem metrics_gauges (gaugeVec : GoMap Nat) (health : SplunkHealth) (up : Upstream) :
    (metricsHandler gaugeVec health up).1 =
      GoMap.merge (if (Check health up).1 then [] else gaugeVec)
        ((SplunkHealth.Flatten (Check health up).2).map (fun kv => (kv.1, gaugeValue kv.2))) := by
  simp [metricsHandler, GoMap.merge, List.foldl_map]

theorem keys_map_value {β γ : Type} (m : GoMap β) (f : β → γ) :
    GoMap.keys (m.map (fun kv => (kv.1, f kv.2))) = m.keys := by
  simp [GoMap.keys, List.map_map, Function.comp_def]

theorem get?_map_value {β γ : Type} (m : GoMap β) (f : β → γ) (k : String) :
    GoMap.get? (m.map (fun kv => (kv.1, f kv.2))) k = (m.get? k).map f := by
  induction m with
  | nil => rfl
  | cons hd tl ih =>
    obtain ⟨k0, v0⟩ := hd
    by_cases h : k0 = k
    · simp [GoMap.get?, h]
    · simp only [List.map_cons, GoMap.get?, if_neg h]
      exact ih

/-- C9: after a `/metrics` request on a gauge vector with labels `G`, when
`Check` returned true the labels are exactly the keys of the flattened state
after the check, so that no other label of `G` is retained; when `Check`
returned false nothing is reset and the labels are those of `G` together with
those keys; in both cases the gauge of every path of that flattened state is 0
when its status is healthy and 1 otherwise. -/
theorem metrics_labels_and_values (G : GoMap Nat) (health : SplunkHealth) (up : Upstream) :
    ((Check health up).1 = true → ∀ k,
      k ∈ (metricsHandler G health up).1.keys ↔
        k ∈ (SplunkHealth.Flatten (Check health up).2).keys) ∧
    ((Check health up).1 = false → ∀ k,
      k ∈ (metricsHandler G health up).1.keys ↔
        k ∈ G.keys ∨ k ∈ (SplunkHealth.Flatten (Check health up).2).keys) ∧
    (∀ k s, (SplunkHealth.Flatten (Check health up).2).get? k = some s →
      (metricsHandler G health up).1.get? k = some (if s.Health = "green" then 0 else 1)) ∧
    ((Check health up).1 = false → ∀ k,
      k ∉ (SplunkHealth.Flatten (Check health up).2).keys →
        (metricsHandler G health up).1.get? k = G.get? k) ∧
    (metricsHandler G health up).2 = (Check health up).2 := by
  refine ⟨?_, ?_, ?_, ?_, rfl⟩
  · intro hc k
    rw [metrics_gauges, GoMap.mem_keys_merge, keys_map_value, hc]
    simp [GoMap.keys]
  · intro hc k
    rw [metrics_gauges, GoMap.mem_keys_merge, keys_map_value, hc]
    simp
  · intro k s hs
    have hn : (GoMap.keys ((SplunkHealth.Flatten (Check health up).2).map
        (fun kv => (kv.1, gaugeValue kv.2)))).Nodup := by
      rw [keys_map_value]
      exact flatten_keys_nodup _
    rw [metrics_gauges, GoMap.get?_merge _ _ _ hn, get?_map_value, hs]
    simp [gaugeValue, Status.Healthy]
  · intro hc k hk
    have hn : (GoMap.keys ((SplunkHealth.Flatten (Check health up).2).map
        (fun kv => (kv.1, gaugeValue kv.2)))).Nodup := by
      rw [keys_map_value]
      exact flatten_keys_nodup _
    rw [metrics_gauges, GoMap.get?_merge _ _ _ hn, get?_map_value,
      GoMap.get?_eq_none _ k hk, hc]
    simp

/-- C10 (the code at the failing inputs): with a recorded handle the handler
answers 500 "not ok" after an exit with any code and 200 "ok" before the process
has ended; for a process killed by a signal, a terminal exit, it still answers
200 "ok"; and before any handle is recorded it writes no response at all. -/
theorem livez_on_each_state :
    (∀ code, livezHandler (some (LastExitState.Exited code).handle) = some ⟨500, "not ok"⟩) ∧
    livezHandler (some LastExitState.NotStarted.handle) = some ⟨200, "ok"⟩ ∧
    livezHandler (some LastExitState.Running.handle) = some ⟨200, "ok"⟩ ∧
    LastExitState.Killed.terminal = true ∧
    livezHandler (some LastExitState.Killed.handle) = some ⟨200, "ok"⟩ ∧
    (∀ sig, livezHandler (some ⟨some (.signaled sig)⟩) = some ⟨200, "ok"⟩) ∧
    livezHandler none = none := by
  refine ⟨fun _ => rfl, rfl, rfl, rfl, rfl, fun _ => rfl, rfl⟩

/-! ## The supervisor loops -/

theorem Supervisor.step_done (u : Supervisor) (a : Advance) :
    (u.step true a).started = u.started ∧ (u.step true a).phase.rank ≤ u.phase.rank - 1 := by
  obtain ⟨n, ph⟩ := u
  cases ph <;> cases a <;> simp [Supervisor.step, Phase.rank]

theorem System.run_cons (s : System) (e : Event) (es : List Event) :
    s.run (e :: es) = (s.step e).run es := rfl

theorem run_after_shutdown (es : List Event) :
    ∀ s : System, s.shutdown = true →
      (s.run es).shutdown = true ∧
      (s.run es).splunk.started = s.splunk.started ∧
      (s.run es).tail.started = s.tail.started ∧
      (s.run es).splunk.phase.rank ≤ s.splunk.phase.rank - (es.filter Event.isRunSplunk).length ∧
      (s.run es).tail.phase.rank ≤ s.tail.phase.rank - (es.filter Event.isTailFile).length := by
  induction es with
  | nil => intro s hs; simp [System.run, hs]
  | cons e tl ih =>
    intro s hs
    rw [System.run_cons]
    cases e with
    | signal =>
      have h := ih (s.step .signal) rfl
      simpa [System.step, Event.isRunSplunk, Event.isTailFile] using h
    | runSplunk a =>
      have h := ih (s.step (.runSplunk a)) hs
      have h1 := Supervisor.step_done s.splunk a
      simp only [System.step, hs, Event.isRunSplunk, Event.isTailFile, List.filter_cons,
        List.length_cons, if_true] at h ⊢
      refine ⟨h.1, by omega, h.2.2.1, by omega, ?_⟩
      simpa using h.2.2.2.2
    | tailFile a =>
      have h := ih (s.step (.tailFile a)) hs
      have h1 := Supervisor.step_done s.tail a
      simp only [System.step, hs, Event.isRunSplunk, Event.isTailFile, List.filter_cons,
        List.length_cons, if_true] at h ⊢
      refine ⟨h.1, h.2.1, by omega, ?_, by omega⟩
      simpa using h.2.2.2.1

theorem Phase.rank_le (p : Phase) : p.rank ≤ 3 := by
  cases p <;> simp [Phase.rank]

theorem Phase.exited_of_rank (p : Phase) (h : p.rank = 0) : p = .exited := by
  cases p <;> simp [Phase.rank] at h ⊢

/-- C7: once the shutdown flag is set, along any sequence of events the flag
stays set and neither loop starts another child process; a loop standing at its
restart decision exits with its next step; and a loop that has taken three steps
since then, also from the sleep between restarts, has exited. -/
theorem no_spawn_after_shutdown (s : System) (es : List Event) (h : s.shutdown = true) :
    (s.run es).shutdown = true ∧
    (s.run es).splunk.started = s.splunk.started ∧
    (s.run es).tail.started = s.tail.started ∧
    (∀ a, s.splunk.phase = .atReturn → (s.step (.runSplunk a)).splunk.phase = .exited) ∧
    (∀ a, s.tail.phase = .atReturn → (s.step (.tailFile a)).tail.phase = .exited) ∧
    (3 ≤ (es.filter Event.isRunSplunk).length → (s.run es).splunk.phase = .exited) ∧
    (3 ≤ (es.filter Event.isTailFile).length → (s.run es).tail.phase = .exited) := by
  have hr := run_after_shutdown es s h
  refine ⟨hr.1, hr.2.1, hr.2.2.1, ?_, ?_, ?_, ?_⟩
  · intro a hp
    simp [System.step, Supervisor.step, hp, h]
  · intro a hp
    simp [System.step, Supervisor.step, hp, h]
  · intro h3
    apply Phase.exited_of_rank
    have := Phase.rank_le s.splunk.phase
    have := hr.2.2.2.1
    omega
  · intro h3
    apply Phase.exited_of_rank
    have := Phase.rank_le s.tail.phase
    have := hr.2.2.2.2
    omega

/-- C7, on a run of the `RunSplunk` loop: the child is started and ends, the
loop goes to sleep and the signal arrives during the sleep; the three steps that
follow start no child and end the loop, while without the signal the same steps
start a second child. -/
theorem no_spawn_after_shutdown_witness :
    System.init.run [.runSplunk .next, .runSplunk .next, .runSplunk .next, .signal] =
      System.signalledAsleep ∧
    System.signalledAsleep.shutdown = true ∧
    (System.signalledAsleep.run
      [.runSplunk .next, .runSplunk .next, .runSplunk .next]).splunk.started = 1 ∧
    (System.signalledAsleep.run
      [.runSplunk .next, .runSplunk .next, .runSplunk .next]).splunk.phase = .exited ∧
    ((System.mk false ⟨1, .sleeping⟩ ⟨0, .atStart⟩).run
      [.runSplunk .next, .runSplunk .next, .runSplunk .next]).splunk = ⟨2, .atReturn⟩ :=
  ⟨by decide, rfl,
    (no_spawn_after_shutdown System.signalledAsleep
      [.runSplunk .next, .runSplunk .next, .runSplunk .next] rfl).2.1,
    (no_spawn_after_shutdown System.signalledAsleep
      [.runSplunk .next, .runSplunk .next, .runSplunk .next] rfl).2.2.2.2.2.1 (by decide),
    by decide⟩

end Runner
